import Mathlib

/-!
Verification of the emoji search engine (suffix-trie substring index,
weighted voting search, snapshot restore, curated defaults) against its
natural-language specification.

Strings are modelled as `List Char`; JavaScript's `String.prototype.trim`
and `toLowerCase` are modelled with `Char.isWhitespace` / `Char.toLower`
(the catalogs in scope are plain text, where these agree with JS).
-/

abbrev Str := List Char

/-- Model of JS `toLowerCase` (per-character lowering). -/
def toLowerStr (s : Str) : Str := s.map Char.toLower

/-- Model of JS `trim`: drop whitespace from both ends. -/
def jsTrim (s : Str) : Str :=
  ((s.dropWhile Char.isWhitespace).reverse.dropWhile Char.isWhitespace).reverse

/-- `q` occurs in `s` as a contiguous substring. -/
def partOf (q s : Str) : Prop := ∃ l r, l ++ q ++ r = s

/-- `q` is a leading segment of `s`. -/
def startOf (q s : Str) : Prop := ∃ r, q ++ r = s

theorem startOf_partOf {q s : Str} (h : startOf q s) : partOf q s := by
  obtain ⟨r, hr⟩ := h
  exact ⟨[], r, hr⟩

theorem startOf_nil (s : Str) : startOf [] s := ⟨s, rfl⟩

theorem partOf_nil (s : Str) : partOf [] s := startOf_partOf (startOf_nil s)

theorem not_partOf_nil {q : Str} (hq : q ≠ []) : ¬ partOf q [] := by
  rintro ⟨l, r, h⟩
  rcases List.append_eq_nil.mp h with ⟨h1, h2⟩
  rcases List.append_eq_nil.mp h1 with ⟨-, h3⟩
  exact hq h3

theorem startOf_cons_iff {p : Str} {c : Char} {s : Str} :
    startOf p (c :: s) ↔ p = [] ∨ ∃ p', p = c :: p' ∧ startOf p' s := by
  constructor
  · rintro ⟨r, hr⟩
    cases p with
    | nil => exact Or.inl rfl
    | cons a p' =>
      rw [List.cons_append] at hr
      injection hr with h1 h2
      exact Or.inr ⟨p', by rw [h1], ⟨r, h2⟩⟩
  · rintro (rfl | ⟨p', rfl, r, hr⟩)
    · exact startOf_nil _
    · exact ⟨r, by rw [List.cons_append, hr]⟩

theorem partOf_cons_iff {p : Str} {c : Char} {s : Str} :
    partOf p (c :: s) ↔ startOf p (c :: s) ∨ partOf p s := by
  constructor
  · rintro ⟨l, r, hr⟩
    cases l with
    | nil => exact Or.inl ⟨r, hr⟩
    | cons a l' =>
      simp only [List.cons_append] at hr
      injection hr with h1 h2
      exact Or.inr ⟨l', r, h2⟩
  · rintro (h | ⟨l, r, hr⟩)
    · exact startOf_partOf h
    · exact ⟨c :: l, r, by simp only [List.cons_append]; rw [hr]⟩

/-- Trie node: child nodes keyed by a single character, plus the list of
record ids whose indexed string contains the path to this node. -/
inductive TrieNode : Type where
  | mk (children : List (Char × TrieNode)) (output : List Nat)

def TrieNode.children : TrieNode → List (Char × TrieNode)
  | .mk c _ => c

def TrieNode.output : TrieNode → List Nat
  | .mk _ o => o

def TrieNode.empty : TrieNode := .mk [] []

/-- First-match lookup in a child map (JS object property read). -/
def lookupChild : List (Char × TrieNode) → Char → Option TrieNode
  | [], _ => none
  | (k, v) :: rest, c => if k = c then some v else lookupChild rest c

/-- Replace-or-append write in a child map (JS object property write). -/
def setChild : List (Char × TrieNode) → Char → TrieNode → List (Char × TrieNode)
  | [], c, v => [(c, v)]
  | (k, w) :: rest, c, v =>
      if k = c then (c, v) :: rest else (k, w) :: setChild rest c v

/-- Push an id onto an output list unless it is already present
(`if (!node.output.includes(emojiIdx)) node.output.push(emojiIdx)`). -/
def pushUnique (l : List Nat) (i : Nat) : List Nat :=
  if i ∈ l then l else l ++ [i]

/-- One inner-loop pass of `insertIntoTrie`: walk the characters of a single
suffix, creating children on demand and tagging every visited node. -/
def insertSuffix : TrieNode → Str → Nat → TrieNode
  | node, [], _ => node
  | node, c :: rest, idx =>
      let child0 := (lookupChild node.children c).getD TrieNode.empty
      let child1 := TrieNode.mk child0.children (pushUnique child0.output idx)
      let child2 := insertSuffix child1 rest idx
      TrieNode.mk (setChild node.children c child2) node.output

/-- Insert all suffixes of a string into the given trie
(the outer `for (let start = 0; ...)` loop of the source). -/
def insertIntoTrie : TrieNode → Str → Nat → TrieNode
  | root, [], _ => root
  | root, c :: rest, idx => insertIntoTrie (insertSuffix root (c :: rest) idx) rest idx

/-- Search for a substring in the given trie. -/
def searchTrie : TrieNode → Str → List Nat
  | node, [] => node.output
  | node, c :: rest =>
      match lookupChild node.children c with
      | none => []
      | some child => searchTrie child rest

theorem searchTrie_empty (q : Str) : searchTrie TrieNode.empty q = [] := by
  cases q with
  | nil => rfl
  | cons c rest => rfl

theorem lookupChild_setChild_self (m : List (Char × TrieNode)) (c : Char) (v : TrieNode) :
    lookupChild (setChild m c v) c = some v := by
  induction m with
  | nil => simp [setChild, lookupChild]
  | cons kv rest ih =>
    obtain ⟨k, w⟩ := kv
    by_cases h : k = c
    · simp [setChild, h, lookupChild]
    · simp [setChild, h, lookupChild, ih]

theorem lookupChild_setChild_ne (m : List (Char × TrieNode)) (c a : Char) (v : TrieNode)
    (h : a ≠ c) : lookupChild (setChild m c v) a = lookupChild m a := by
  have hca : c ≠ a := Ne.symm h
  induction m with
  | nil => simp [setChild, lookupChild, hca]
  | cons kv rest ih =>
    obtain ⟨k, w⟩ := kv
    by_cases hk : k = c
    · subst hk
      simp [setChild, lookupChild, hca]
    · simp [setChild, hk, lookupChild, ih]

theorem mem_pushUnique {l : List Nat} {i j : Nat} :
    j ∈ pushUnique l i ↔ j ∈ l ∨ j = i := by
  unfold pushUnique
  by_cases h : i ∈ l
  · simp only [if_pos h]
    constructor
    · exact fun hj => Or.inl hj
    · rintro (hj | rfl)
      · exact hj
      · exact h
  · simp [if_neg h]

theorem insertSuffix_output (t : TrieNode) (s : Str) (idx : Nat) :
    (insertSuffix t s idx).output = t.output := by
  cases s with
  | nil => rfl
  | cons c rest => rfl

theorem searchTrie_nil (node : TrieNode) : searchTrie node [] = node.output := rfl

theorem searchTrie_cons (node : TrieNode) (c : Char) (p : Str) :
    searchTrie node (c :: p) =
      match lookupChild node.children c with
      | none => []
      | some child => searchTrie child p := rfl

theorem TrieNode.children_mk (ch : List (Char × TrieNode)) (o : List Nat) :
    (TrieNode.mk ch o).children = ch := rfl

theorem TrieNode.output_mk (ch : List (Char × TrieNode)) (o : List Nat) :
    (TrieNode.mk ch o).output = o := rfl

theorem not_startOf_cons_nil (a : Char) (p : Str) : ¬ startOf (a :: p) [] := by
  rintro ⟨r, hr⟩
  simp at hr

theorem not_startOf_cons_ne {a c : Char} (p s : Str) (h : a ≠ c) :
    ¬ startOf (a :: p) (c :: s) := by
  rintro ⟨r, hr⟩
  simp only [List.cons_append] at hr
  injection hr with h1 h2
  exact h h1

theorem startOf_cons_cons {c : Char} {p s : Str} :
    startOf (c :: p) (c :: s) ↔ startOf p s := by
  constructor
  · rintro ⟨r, hr⟩
    simp only [List.cons_append] at hr
    injection hr with h1 h2
    exact ⟨r, h2⟩
  · rintro ⟨r, hr⟩
    exact ⟨r, by simp only [List.cons_append]; rw [hr]⟩

/-- Descending one level into the freshly tagged child of `insertSuffix`
is the same as searching one character deeper in the original trie, except
that the inserted id is newly present at the child itself. -/
theorem mem_searchTrie_entered (t : TrieNode) (c : Char) (p : Str) (idx j : Nat) :
    j ∈ searchTrie (TrieNode.mk ((lookupChild t.children c).getD TrieNode.empty).children
        (pushUnique ((lookupChild t.children c).getD TrieNode.empty).output idx)) p ↔
      j ∈ searchTrie t (c :: p) ∨ (j = idx ∧ p = []) := by
  cases hl : lookupChild t.children c with
  | none =>
    cases p with
    | nil =>
      simp [searchTrie_nil, searchTrie_cons, hl, TrieNode.empty, mem_pushUnique,
        TrieNode.children_mk, TrieNode.output_mk]
    | cons b p2 =>
      simp [searchTrie_cons, hl, TrieNode.empty, lookupChild,
        TrieNode.children_mk, TrieNode.output_mk]
  | some ch =>
    cases p with
    | nil =>
      simp [searchTrie_nil, searchTrie_cons, hl, mem_pushUnique,
        TrieNode.children_mk, TrieNode.output_mk]
    | cons b p2 =>
      simp [searchTrie_cons, hl, TrieNode.children_mk, TrieNode.output_mk]

/-- Membership after inserting one suffix: searching for `p` finds everything
it found before, plus the inserted id at every node along the inserted path
(nonempty path segments of `s`). -/
theorem mem_searchTrie_insertSuffix :
    ∀ (p : Str) (t : TrieNode) (s : Str) (idx j : Nat),
      j ∈ searchTrie (insertSuffix t s idx) p ↔
        j ∈ searchTrie t p ∨ (j = idx ∧ p ≠ [] ∧ startOf p s) := by
  intro p
  induction p with
  | nil =>
    intro t s idx j
    simp [searchTrie_nil, insertSuffix_output]
  | cons a p' ih =>
    intro t s idx j
    cases s with
    | nil =>
      simp [insertSuffix, not_startOf_cons_nil]
    | cons c s' =>
      by_cases hac : a = c
      · subst hac
        simp only [insertSuffix, searchTrie_cons, TrieNode.children_mk,
          lookupChild_setChild_self]
        rw [ih, mem_searchTrie_entered]
        rw [← searchTrie_cons]
        simp only [startOf_cons_cons, ne_eq, List.cons_ne_nil, not_false_iff, true_and]
        constructor
        · rintro ((h | ⟨rfl, hp⟩) | ⟨rfl, hp, h⟩)
          · exact Or.inl h
          · exact Or.inr ⟨rfl, by subst hp; exact startOf_nil s'⟩
          · exact Or.inr ⟨rfl, h⟩
        · rintro (h | ⟨rfl, h⟩)
          · exact Or.inl (Or.inl h)
          · by_cases hp : p' = []
            · exact Or.inl (Or.inr ⟨rfl, hp⟩)
            · exact Or.inr ⟨rfl, hp, h⟩
      · simp only [insertSuffix, searchTrie_cons, TrieNode.children_mk,
          lookupChild_setChild_ne _ _ _ _ hac]
        rw [← searchTrie_cons]
        simp [not_startOf_cons_ne p' s' hac]

/-- Membership after inserting every suffix of `text`: searching for `p` finds
everything it found before, plus the inserted id exactly when `p` is a
nonempty contiguous substring of `text`. -/
theorem mem_searchTrie_insertIntoTrie :
    ∀ (text : Str) (t : TrieNode) (idx j : Nat) (p : Str),
      j ∈ searchTrie (insertIntoTrie t text idx) p ↔
        j ∈ searchTrie t p ∨ (j = idx ∧ p ≠ [] ∧ partOf p text) := by
  intro text
  induction text with
  | nil =>
    intro t idx j p
    simp only [insertIntoTrie]
    constructor
    · exact Or.inl
    · rintro (h | ⟨rfl, hp, hpart⟩)
      · exact h
      · exact absurd hpart (not_partOf_nil hp)
  | cons c rest ih =>
    intro t idx j p
    simp only [insertIntoTrie]
    rw [ih, mem_searchTrie_insertSuffix]
    by_cases hp : p = []
    · subst hp
      simp
    · simp only [hp, not_false_iff, true_and, ne_eq]
      rw [partOf_cons_iff]
      tauto

/-- Compact catalog tuple `(emoji, name, category, subCategory, keywords, image)`
from `type.ts`; the image entry is four 0/1 platform flags plus a path. -/
structure Emoji where
  emoji : Str
  name : Str
  category : Nat
  subCategory : Nat
  keywords : List Nat
  image : Option (Nat × Nat × Nat × Nat × Str)
deriving DecidableEq

/-- The decoded catalog (`ReducedEmojiList` in `type.ts`). -/
structure ReducedEmojiList where
  category : List Str
  subCategory : List (List Str)
  keywords : List Str
  emojis : List Emoji
deriving DecidableEq

/-- The four index structures built by `buildTries` / restored from a snapshot. -/
structure BuiltTries where
  nameTrieRoot : TrieNode
  keywordTrieRoot : TrieNode
  categoryTrieRoot : TrieNode
  nameMap : List (Str × Nat)

/-- First-match lookup in the exact-name table (JS object property read). -/
def lookupAssoc : List (Str × Nat) → Str → Option Nat
  | [], _ => none
  | (k, v) :: rest, s => if k = s then some v else lookupAssoc rest s

/-- Replace-or-append write in the exact-name table (JS object property write;
`this.nameMap[name] = i`, last writer wins). -/
def setAssoc : List (Str × Nat) → Str → Nat → List (Str × Nat)
  | [], s, v => [(s, v)]
  | (k, w) :: rest, s, v =>
      if k = s then (s, v) :: rest else (k, w) :: setAssoc rest s v

/-- The body of `buildTries` for a single record `e` at index `i`:
register the exact name, insert the lowercased name's suffixes, each
referenced keyword's suffixes, and the category and subcategory suffixes.
Out-of-range catalog references resolve to `[]` where the source asserts
non-null (`!`); a well-formed catalog never hits that default. -/
def buildStep (lst : ReducedEmojiList) (st : BuiltTries) (i : Nat) (e : Emoji) : BuiltTries :=
  { nameTrieRoot := insertIntoTrie st.nameTrieRoot (toLowerStr e.name) i
    keywordTrieRoot :=
      e.keywords.foldl
        (fun t kIdx => insertIntoTrie t (toLowerStr (lst.keywords.getD kIdx [])) i)
        st.keywordTrieRoot
    categoryTrieRoot :=
      insertIntoTrie
        (insertIntoTrie st.categoryTrieRoot (toLowerStr (lst.category.getD e.category [])) i)
        (toLowerStr ((lst.subCategory.getD e.category []).getD e.subCategory [])) i
    nameMap := setAssoc st.nameMap e.name i }

/-- The `for (let i = 0; i < emojis.length; i++)` loop of `buildTries`. -/
def buildFrom (lst : ReducedEmojiList) : BuiltTries → Nat → List Emoji → BuiltTries
  | st, _, [] => st
  | st, i, e :: rest => buildFrom lst (buildStep lst st i e) (i + 1) rest

def emptyTries : BuiltTries :=
  ⟨TrieNode.empty, TrieNode.empty, TrieNode.empty, []⟩

/-- Build suffix-tries for names, keywords, and categories. -/
def buildTries (lst : ReducedEmojiList) : BuiltTries :=
  buildFrom lst emptyTries 0 lst.emojis

theorem mem_searchTrie_keywordFold (lst : ReducedEmojiList) (i : Nat) :
    ∀ (ks : List Nat) (t : TrieNode) (j : Nat) (p : Str),
      j ∈ searchTrie
          (ks.foldl (fun t kIdx => insertIntoTrie t (toLowerStr (lst.keywords.getD kIdx [])) i) t)
          p ↔
        j ∈ searchTrie t p ∨
          (j = i ∧ p ≠ [] ∧ ∃ kIdx ∈ ks, partOf p (toLowerStr (lst.keywords.getD kIdx []))) := by
  intro ks
  induction ks with
  | nil =>
    intro t j p
    simp
  | cons k ks ih =>
    intro t j p
    simp only [List.foldl_cons]
    rw [ih, mem_searchTrie_insertIntoTrie]
    constructor
    · rintro ((h | ⟨rfl, hp, hpart⟩) | ⟨rfl, hp, kIdx, hk, hpart⟩)
      · exact Or.inl h
      · exact Or.inr ⟨rfl, hp, k, List.mem_cons_self k ks, hpart⟩
      · exact Or.inr ⟨rfl, hp, kIdx, List.mem_cons_of_mem _ hk, hpart⟩
    · rintro (h | ⟨rfl, hp, kIdx, hk, hpart⟩)
      · exact Or.inl (Or.inl h)
      · rcases List.mem_cons.mp hk with rfl | hk'
        · exact Or.inl (Or.inr ⟨rfl, hp, hpart⟩)
        · exact Or.inr ⟨rfl, hp, kIdx, hk', hpart⟩

theorem mem_name_buildFrom (lst : ReducedEmojiList) :
    ∀ (es : List Emoji) (st : BuiltTries) (i j : Nat) (p : Str),
      j ∈ searchTrie (buildFrom lst st i es).nameTrieRoot p ↔
        j ∈ searchTrie st.nameTrieRoot p ∨
          (p ≠ [] ∧ ∃ k e, es.get? k = some e ∧ j = i + k ∧ partOf p (toLowerStr e.name)) := by
  intro es
  induction es with
  | nil =>
    intro st i j p
    simp [buildFrom]
  | cons e rest ih =>
    intro st i j p
    simp only [buildFrom]
    rw [ih]
    simp only [buildStep]
    rw [mem_searchTrie_insertIntoTrie]
    constructor
    · rintro ((h | ⟨rfl, hp, hpart⟩) | ⟨hp, k, e', hk, rfl, hpart⟩)
      · exact Or.inl h
      · exact Or.inr ⟨hp, 0, e, rfl, by omega, hpart⟩
      · exact Or.inr ⟨hp, k + 1, e', by simpa using hk, by omega, hpart⟩
    · rintro (h | ⟨hp, k, e', hk, rfl, hpart⟩)
      · exact Or.inl (Or.inl h)
      · cases k with
        | zero =>
          obtain rfl : e = e' := by simpa using hk
          exact Or.inl (Or.inr ⟨by omega, hp, hpart⟩)
        | succ k' =>
          exact Or.inr ⟨hp, k', e', by simpa using hk, by omega, hpart⟩

theorem mem_keyword_buildFrom (lst : ReducedEmojiList) :
    ∀ (es : List Emoji) (st : BuiltTries) (i j : Nat) (p : Str),
      j ∈ searchTrie (buildFrom lst st i es).keywordTrieRoot p ↔
        j ∈ searchTrie st.keywordTrieRoot p ∨
          (p ≠ [] ∧ ∃ k e, es.get? k = some e ∧ j = i + k ∧
            ∃ kIdx ∈ e.keywords, partOf p (toLowerStr (lst.keywords.getD kIdx []))) := by
  intro es
  induction es with
  | nil =>
    intro st i j p
    simp [buildFrom]
  | cons e rest ih =>
    intro st i j p
    simp only [buildFrom]
    rw [ih]
    simp only [buildStep]
    rw [mem_searchTrie_keywordFold]
    constructor
    · rintro ((h | ⟨rfl, hp, hpart⟩) | ⟨hp, k, e', hk, rfl, hpart⟩)
      · exact Or.inl h
      · exact Or.inr ⟨hp, 0, e, rfl, by omega, hpart⟩
      · exact Or.inr ⟨hp, k + 1, e', by simpa using hk, by omega, hpart⟩
    · rintro (h | ⟨hp, k, e', hk, rfl, hpart⟩)
      · exact Or.inl (Or.inl h)
      · cases k with
        | zero =>
          obtain rfl : e = e' := by simpa using hk
          exact Or.inl (Or.inr ⟨by omega, hp, hpart⟩)
        | succ k' =>
          exact Or.inr ⟨hp, k', e', by simpa using hk, by omega, hpart⟩

theorem mem_category_buildFrom (lst : ReducedEmojiList) :
    ∀ (es : List Emoji) (st : BuiltTries) (i j : Nat) (p : Str),
      j ∈ searchTrie (buildFrom lst st i es).categoryTrieRoot p ↔
        j ∈ searchTrie st.categoryTrieRoot p ∨
          (p ≠ [] ∧ ∃ k e, es.get? k = some e ∧ j = i + k ∧
            (partOf p (toLowerStr (lst.category.getD e.category [])) ∨
             partOf p (toLowerStr ((lst.subCategory.getD e.category []).getD e.subCategory [])))) := by
  intro es
  induction es with
  | nil =>
    intro st i j p
    simp [buildFrom]
  | cons e rest ih =>
    intro st i j p
    simp only [buildFrom]
    rw [ih]
    simp only [buildStep]
    rw [mem_searchTrie_insertIntoTrie, mem_searchTrie_insertIntoTrie]
    constructor
    · rintro (((h | ⟨rfl, hp, hpart⟩) | ⟨rfl, hp, hpart⟩) | ⟨hp, k, e', hk, rfl, hpart⟩)
      · exact Or.inl h
      · exact Or.inr ⟨hp, 0, e, rfl, by omega, Or.inl hpart⟩
      · exact Or.inr ⟨hp, 0, e, rfl, by omega, Or.inr hpart⟩
      · exact Or.inr ⟨hp, k + 1, e', by simpa using hk, by omega, hpart⟩
    · rintro (h | ⟨hp, k, e', hk, rfl, hpart⟩)
      · exact Or.inl (Or.inl (Or.inl h))
      · cases k with
        | zero =>
          obtain rfl : e = e' := by simpa using hk
          rcases hpart with hc | hs
          · exact Or.inl (Or.inl (Or.inr ⟨by omega, hp, hc⟩))
          · exact Or.inl (Or.inr ⟨by omega, hp, hs⟩)
        | succ k' =>
          exact Or.inr ⟨hp, k', e', by simpa using hk, by omega, hpart⟩

theorem lookupAssoc_setAssoc_self (m : List (Str × Nat)) (k : Str) (v : Nat) :
    lookupAssoc (setAssoc m k v) k = some v := by
  induction m with
  | nil => simp [setAssoc, lookupAssoc]
  | cons kv rest ih =>
    obtain ⟨k', w⟩ := kv
    by_cases h : k' = k
    · simp [setAssoc, h, lookupAssoc]
    · simp [setAssoc, h, lookupAssoc, ih]

theorem lookupAssoc_setAssoc_ne (m : List (Str × Nat)) (k s : Str) (v : Nat)
    (h : s ≠ k) : lookupAssoc (setAssoc m k v) s = lookupAssoc m s := by
  have hks : k ≠ s := Ne.symm h
  induction m with
  | nil => simp [setAssoc, lookupAssoc, hks]
  | cons kv rest ih =>
    obtain ⟨k', w⟩ := kv
    by_cases hk : k' = k
    · subst hk
      simp [setAssoc, lookupAssoc, hks]
    · simp [setAssoc, hk, lookupAssoc, ih]

theorem nameMap_buildFrom_absent (lst : ReducedEmojiList) :
    ∀ (es : List Emoji) (st : BuiltTries) (i : Nat) (s : Str),
      (∀ e ∈ es, e.name ≠ s) →
      lookupAssoc (buildFrom lst st i es).nameMap s = lookupAssoc st.nameMap s := by
  intro es
  induction es with
  | nil =>
    intro st i s h
    simp [buildFrom]
  | cons e rest ih =>
    intro st i s h
    simp only [buildFrom]
    rw [ih _ _ _ (fun e' he' => h e' (List.mem_cons_of_mem _ he'))]
    simp only [buildStep]
    exact lookupAssoc_setAssoc_ne _ _ _ _ (Ne.symm (h e (List.mem_cons_self e rest)))

/-- The exact-name table keeps the last record processed for a given name. -/
theorem nameMap_buildFrom_last (lst : ReducedEmojiList) :
    ∀ (es : List Emoji) (st : BuiltTries) (i k : Nat) (e : Emoji),
      es.get? k = some e →
      (∀ k' e', k < k' → es.get? k' = some e' → e'.name ≠ e.name) →
      lookupAssoc (buildFrom lst st i es).nameMap e.name = some (i + k) := by
  intro es
  induction es with
  | nil =>
    intro st i k e hk hlast
    simp at hk
  | cons e0 rest ih =>
    intro st i k e hk hlast
    cases k with
    | zero =>
      obtain rfl : e0 = e := by simpa using hk
      simp only [buildFrom]
      rw [nameMap_buildFrom_absent]
      · simp only [buildStep]
        rw [lookupAssoc_setAssoc_self]
        simp
      · intro e' he'
        obtain ⟨n, hn⟩ := List.mem_iff_get?.mp he'
        exact hlast (n + 1) e' (by omega) (by simpa using hn)
    | succ k' =>
      simp only [buildFrom]
      have hrec := ih (buildStep lst st i e0) (i + 1) k' e (by simpa using hk)
        (fun k'' e'' hlt hget => hlast (k'' + 1) e'' (by omega) (by simpa using hget))
      rw [hrec]
      have : i + 1 + k' = i + (k' + 1) := by omega
      rw [this]

/-- Every node's output list is duplicate-free, throughout the trie. -/
inductive TrieNodup : TrieNode → Prop where
  | mk : ∀ (ch : List (Char × TrieNode)) (out : List Nat),
      out.Nodup → (∀ c t, (c, t) ∈ ch → TrieNodup t) → TrieNodup (TrieNode.mk ch out)

theorem TrieNodup.output_nodup {t : TrieNode} (h : TrieNodup t) : t.output.Nodup := by
  cases h with
  | mk ch out hout hch => exact hout

theorem TrieNodup.child {t : TrieNode} (h : TrieNodup t) {c : Char} {u : TrieNode}
    (hm : (c, u) ∈ t.children) : TrieNodup u := by
  cases h with
  | mk ch out hout hch => exact hch _ _ hm

theorem trieNodup_empty : TrieNodup TrieNode.empty :=
  TrieNodup.mk [] [] List.nodup_nil (by intro c t h; simp at h)

theorem pushUnique_nodup {l : List Nat} {i : Nat} (h : l.Nodup) : (pushUnique l i).Nodup := by
  unfold pushUnique
  by_cases hm : i ∈ l
  · simpa [hm]
  · simp [hm, List.nodup_append, h]

theorem lookupChild_mem : ∀ {m : List (Char × TrieNode)} {c : Char} {u : TrieNode},
    lookupChild m c = some u → (c, u) ∈ m := by
  intro m
  induction m with
  | nil =>
    intro c u h
    simp [lookupChild] at h
  | cons kv rest ih =>
    intro c u h
    obtain ⟨k, w⟩ := kv
    by_cases hk : k = c
    · subst hk
      have h' : w = u := by simpa [lookupChild] using h
      subst h'
      exact List.mem_cons_self _ _
    · simp only [lookupChild, if_neg hk] at h
      exact List.mem_cons_of_mem _ (ih h)

theorem mem_setChild : ∀ {m : List (Char × TrieNode)} {c : Char} {v : TrieNode}
    {c' : Char} {t : TrieNode}, (c', t) ∈ setChild m c v → (c', t) ∈ m ∨ t = v := by
  intro m
  induction m with
  | nil =>
    intro c v c' t h
    simp only [setChild, List.mem_singleton, Prod.mk.injEq] at h
    exact Or.inr h.2
  | cons kv rest ih =>
    intro c v c' t h
    obtain ⟨k, w⟩ := kv
    by_cases hk : k = c
    · subst hk
      rw [setChild, if_pos rfl] at h
      rcases List.mem_cons.mp h with h1 | h2
      · injection h1 with ha hb
        exact Or.inr hb
      · exact Or.inl (List.mem_cons_of_mem _ h2)
    · rw [setChild, if_neg hk] at h
      rcases List.mem_cons.mp h with h1 | h2
      · exact Or.inl (List.mem_cons.mpr (Or.inl h1))
      · rcases ih h2 with h3 | h3
        · exact Or.inl (List.mem_cons_of_mem _ h3)
        · exact Or.inr h3

theorem trieNodup_insertSuffix :
    ∀ (s : Str) (t : TrieNode), TrieNodup t → ∀ idx, TrieNodup (insertSuffix t s idx) := by
  intro s
  induction s with
  | nil =>
    intro t h idx
    exact h
  | cons c rest ih =>
    intro t h idx
    have hchild0 : TrieNodup ((lookupChild t.children c).getD TrieNode.empty) := by
      cases hl : lookupChild t.children c with
      | none => exact trieNodup_empty
      | some u => exact h.child (lookupChild_mem hl)
    have hchild1 : TrieNodup (TrieNode.mk ((lookupChild t.children c).getD TrieNode.empty).children
        (pushUnique ((lookupChild t.children c).getD TrieNode.empty).output idx)) :=
      TrieNodup.mk _ _ (pushUnique_nodup hchild0.output_nodup)
        (fun c' t' hm => hchild0.child hm)
    have e1 : insertSuffix t (c :: rest) idx = TrieNode.mk (setChild t.children c
        (insertSuffix (TrieNode.mk ((lookupChild t.children c).getD TrieNode.empty).children
          (pushUnique ((lookupChild t.children c).getD TrieNode.empty).output idx)) rest idx))
        t.output := rfl
    rw [e1]
    refine TrieNodup.mk _ _ h.output_nodup ?_
    intro c' t' hm
    rcases mem_setChild hm with hold | hnew
    · exact h.child hold
    · rw [hnew]
      exact ih _ hchild1 idx

theorem trieNodup_insertIntoTrie :
    ∀ (text : Str) (t : TrieNode), TrieNodup t → ∀ idx, TrieNodup (insertIntoTrie t text idx) := by
  intro text
  induction text with
  | nil =>
    intro t h idx
    exact h
  | cons c rest ih =>
    intro t h idx
    exact ih _ (trieNodup_insertSuffix _ _ h idx) idx

theorem trieNodup_keywordFold (lst : ReducedEmojiList) (i : Nat) :
    ∀ (ks : List Nat) (t : TrieNode), TrieNodup t →
      TrieNodup (ks.foldl
        (fun t kIdx => insertIntoTrie t (toLowerStr (lst.keywords.getD kIdx [])) i) t) := by
  intro ks
  induction ks with
  | nil =>
    intro t h
    exact h
  | cons k ks ih =>
    intro t h
    exact ih _ (trieNodup_insertIntoTrie _ _ h i)

theorem trieNodup_buildFrom (lst : ReducedEmojiList) :
    ∀ (es : List Emoji) (st : BuiltTries) (i : Nat),
      TrieNodup st.nameTrieRoot → TrieNodup st.keywordTrieRoot →
      TrieNodup st.categoryTrieRoot →
      TrieNodup (buildFrom lst st i es).nameTrieRoot ∧
      TrieNodup (buildFrom lst st i es).keywordTrieRoot ∧
      TrieNodup (buildFrom lst st i es).categoryTrieRoot := by
  intro es
  induction es with
  | nil =>
    intro st i h1 h2 h3
    exact ⟨h1, h2, h3⟩
  | cons e rest ih =>
    intro st i h1 h2 h3
    refine ih _ _ ?_ ?_ ?_
    · exact trieNodup_insertIntoTrie _ _ h1 i
    · exact trieNodup_keywordFold lst i _ _ h2
    · exact trieNodup_insertIntoTrie _ _ (trieNodup_insertIntoTrie _ _ h3 i) i

/-- Resolved platform-image descriptor (`fromEmojiImageArr` output). -/
structure EmojiImageInfo where
  image : Str
  apple : Bool
  google : Bool
  twitter : Bool
  facebook : Bool
deriving DecidableEq

/-- Output-only result record (`intoHumanReadable` output). Catalog
references that JS would leave `undefined` are modelled with `Option`. -/
structure HumanReadableEmoji where
  emoji : Str
  name : Str
  category : Option Str
  subcategory : Option Str
  keywords : List (Option Str)
  image : Option EmojiImageInfo
  weight : Option Nat
deriving DecidableEq

def fromEmojiImageArr : Option (Nat × Nat × Nat × Nat × Str) → Option EmojiImageInfo
  | none => none
  | some (a, g, t, f, path) =>
      some { image := path, apple := a == 1, google := g == 1,
             twitter := t == 1, facebook := f == 1 }

/-- Engine state: the catalog plus the four built (or restored) index
structures. -/
structure EmojiSearcher where
  emojiList : ReducedEmojiList
  nameTrieRoot : TrieNode
  keywordTrieRoot : TrieNode
  categoryTrieRoot : TrieNode
  nameMap : List (Str × Nat)

/-- Fresh construction: `new EmojiSearcher(emojiList)` without a cache. -/
def EmojiSearcher.make (lst : ReducedEmojiList) : EmojiSearcher :=
  { emojiList := lst
    nameTrieRoot := (buildTries lst).nameTrieRoot
    keywordTrieRoot := (buildTries lst).keywordTrieRoot
    categoryTrieRoot := (buildTries lst).categoryTrieRoot
    nameMap := (buildTries lst).nameMap }

/-- The snapshot produced by `toJSON`. -/
structure CachedJson where
  nameTrieRoot : TrieNode
  keywordTrieRoot : TrieNode
  categoryTrieRoot : TrieNode
  nameMap : List (Str × Nat)

def EmojiSearcher.toJSON (s : EmojiSearcher) : CachedJson :=
  { nameTrieRoot := s.nameTrieRoot
    keywordTrieRoot := s.keywordTrieRoot
    categoryTrieRoot := s.categoryTrieRoot
    nameMap := s.nameMap }

/-- Cached construction: `new EmojiSearcher(emojiList, cachedJson)`. -/
def EmojiSearcher.makeCached (lst : ReducedEmojiList) (c : CachedJson) : EmojiSearcher :=
  { emojiList := lst
    nameTrieRoot := c.nameTrieRoot
    keywordTrieRoot := c.keywordTrieRoot
    categoryTrieRoot := c.categoryTrieRoot
    nameMap := c.nameMap }

def defaultEmoji : Emoji := ⟨[], [], 0, 0, [], none⟩

/-- Convert internal emoji representation to a human-readable object. -/
def intoHumanReadable (lst : ReducedEmojiList) (emojiIdx : Nat) (weight : Option Nat) :
    HumanReadableEmoji :=
  { emoji := (lst.emojis.getD emojiIdx defaultEmoji).emoji
    name := (lst.emojis.getD emojiIdx defaultEmoji).name
    category := lst.category.get? (lst.emojis.getD emojiIdx defaultEmoji).category
    subcategory :=
      ((lst.subCategory.get? (lst.emojis.getD emojiIdx defaultEmoji).category).getD []).get?
        (lst.emojis.getD emojiIdx defaultEmoji).subCategory
    keywords := (lst.emojis.getD emojiIdx defaultEmoji).keywords.map
      (fun k => lst.keywords.get? k)
    image := fromEmojiImageArr (lst.emojis.getD emojiIdx defaultEmoji).image
    weight := weight }

/-- `resultVotes[idx] = (resultVotes[idx] || 0) + weight`, on a vote table
kept sorted by ascending record id.  A JS object with integer-like keys
enumerates `Object.entries` in ascending key order, so the sorted
association list is the faithful model of the vote table's observable
content and enumeration order. -/
def addVote : List (Nat × Nat) → Nat → Nat → List (Nat × Nat)
  | [], idx, w => [(idx, w)]
  | (k, v) :: rest, idx, w =>
      if idx = k then (k, v + w) :: rest
      else if idx < k then (idx, w) :: (k, v) :: rest
      else (k, v) :: addVote rest idx w

/-- `for (const idx of matches) addVote(idx, w)`. -/
def addVotesAll (votes : List (Nat × Nat)) (idxs : List Nat) (w : Nat) : List (Nat × Nat) :=
  idxs.foldl (fun v idx => addVote v idx w) votes

/-- Model of `Array.prototype.indexOf` on the keyword table
(first index whose string equals the query; `-1` becomes `none`). -/
def indexOfStr : List Str → Str → Option Nat
  | [], _ => none
  | s :: rest, q => if s = q then some 0 else (indexOfStr rest q).map (· + 1)

/-- The exact-keyword loop: every record referencing the matched keyword id
gets a weight-4 vote, scanning records in ascending id order. -/
def exactKeywordVotes (lst : ReducedEmojiList) (kIdx : Nat) (votes : List (Nat × Nat)) :
    List (Nat × Nat) :=
  lst.emojis.enum.foldl
    (fun v p => if kIdx ∈ p.2.keywords then addVote v p.1 4 else v) votes

/-- Vote table after step 1 of `search`: the exact-name signal (weight 5),
looked up with the raw `input`, as in the source. -/
def votesStage1 (s : EmojiSearcher) (input : Str) : List (Nat × Nat) :=
  match lookupAssoc s.nameMap input with
  | some idx => addVote [] idx 5
  | none => []

/-- Vote table after step 2 of `search`: the exact-keyword signal (weight 4),
looked up with the raw `input`, applied to every record referencing the
matched keyword id. -/
def votesStage2 (s : EmojiSearcher) (input : Str) : List (Nat × Nat) :=
  match indexOfStr s.emojiList.keywords input with
  | some kIdx => exactKeywordVotes s.emojiList kIdx (votesStage1 s input)
  | none => votesStage1 s input

/-- The accumulated vote table of `search` for a non-blank query:
exact name (5), exact keyword (4), then substring name (3), keyword (2),
category (1) trie hits.  The trie stages use the trimmed, lowercased query. -/
def finalVotes (s : EmojiSearcher) (input : Str) : List (Nat × Nat) :=
  addVotesAll (addVotesAll (addVotesAll (votesStage2 s input)
    (searchTrie s.nameTrieRoot (toLowerStr (jsTrim input))) 3)
    (searchTrie s.keywordTrieRoot (toLowerStr (jsTrim input))) 2)
    (searchTrie s.categoryTrieRoot (toLowerStr (jsTrim input))) 1

/-- `search` at the level of `(record id, optional weight)` pairs: the blank
query lists every record unweighted; otherwise the vote table is filtered to
entries of weight strictly above 3. -/
def searchEntries (s : EmojiSearcher) (input : Str) : List (Nat × Option Nat) :=
  if toLowerStr (jsTrim input) = [] then
    (List.range s.emojiList.emojis.length).map (fun i => (i, none))
  else
    ((finalVotes s input).filter (fun p => 3 < p.2)).map (fun p => (p.1, some p.2))

/-- Search emojis by a user supplied string. -/
def EmojiSearcher.search (s : EmojiSearcher) (input : Str) : List HumanReadableEmoji :=
  (searchEntries s input).map (fun p => intoHumanReadable s.emojiList p.1 p.2)

def EmojiSearcher.getAll (s : EmojiSearcher) : List HumanReadableEmoji :=
  (List.range s.emojiList.emojis.length).map (fun i => intoHumanReadable s.emojiList i none)

/-- The hand-curated common-emoji glyph list. -/
def commonEmojis : List Str :=
  ["😂".data, "❤️".data, "🤣".data, "👍".data, "😭".data, "🙏".data, "😘".data, "🥰".data,
   "😍".data, "😊".data, "🎉".data, "😁".data, "💕".data, "🥺".data, "😅".data, "🔥".data,
   "✨".data, "💖".data, "👀".data, "😋".data, "🙂".data, "😳".data, "🥳".data, "😎".data]

/-- Model of `emojis.findIndex(([emoji]) => emoji === e)`. -/
def findIndexGlyph : List Emoji → Str → Option Nat
  | [], _ => none
  | e :: rest, g => if e.emoji = g then some 0 else (findIndexGlyph rest g).map (· + 1)

def EmojiSearcher.getCommon (s : EmojiSearcher) : List HumanReadableEmoji :=
  (commonEmojis.map (fun g =>
    (findIndexGlyph s.emojiList.emojis g).map
      (fun i => intoHumanReadable s.emojiList i none))).filterMap id

/-- JS truthiness of the optional numeric `weight` field. -/
def truthyWeight : Option Nat → Bool
  | some n => n != 0
  | none => false

/-- Model of `a.emoji.localeCompare(b.emoji)` as code-point lexicographic
comparison (the spec's stated collation). -/
def localeCompareM : Str → Str → Int
  | [], [] => 0
  | [], _ :: _ => -1
  | _ :: _, [] => 1
  | a :: as, b :: bs => if a < b then -1 else if b < a then 1 else localeCompareM as bs

/-- The caller's sort comparator from `throttledSearch`. -/
def resCmp (a b : HumanReadableEmoji) : Int :=
  if truthyWeight a.weight && truthyWeight b.weight then
    (b.weight.getD 0 : Int) - (a.weight.getD 0 : Int)
  else if truthyWeight a.weight then -1
  else if truthyWeight b.weight then 1
  else localeCompareM a.emoji b.emoji

/-- `a` may be placed at or before `b` by the caller's comparator. -/
def resLe (a b : HumanReadableEmoji) : Prop := resCmp a b ≤ 0

instance : DecidableRel resLe :=
  fun a b => inferInstanceAs (Decidable (resCmp a b ≤ 0))

/-- The caller's search handler (`throttledSearch` body): trim, bail out on a
blank query, otherwise search, stable-sort with `resCmp`, and display the
first 32 entries.  JS `Array.prototype.sort` is stable, which a stable
insertion sort models exactly for this consistent comparator. -/
def throttledSearch (s : EmojiSearcher) (input : Str) : Option (List HumanReadableEmoji) :=
  if jsTrim input = [] then none
  else some ((List.insertionSort resLe (s.search (jsTrim input))).take 32)

/-- Lookup in the vote table (`resultVotes[idx]`). -/
def lookupVote : List (Nat × Nat) → Nat → Option Nat
  | [], _ => none
  | (k, v) :: rest, j => if k = j then some v else lookupVote rest j

/-- The vote table's keys are strictly increasing (hence unique). -/
def voteKeysSorted (votes : List (Nat × Nat)) : Prop :=
  votes.Pairwise (fun p q => p.1 < q.1)

theorem mem_addVote : ∀ {votes : List (Nat × Nat)} {idx w : Nat} {q : Nat × Nat},
    q ∈ addVote votes idx w → q ∈ votes ∨ q.1 = idx := by
  intro votes
  induction votes with
  | nil =>
    intro idx w q h
    simp only [addVote, List.mem_singleton] at h
    exact Or.inr (by rw [h])
  | cons kv rest ih =>
    intro idx w q h
    obtain ⟨k, v⟩ := kv
    by_cases h1 : idx = k
    · subst h1
      rw [addVote, if_pos rfl] at h
      rcases List.mem_cons.mp h with rfl | h2
      · exact Or.inr rfl
      · exact Or.inl (List.mem_cons_of_mem _ h2)
    · by_cases h2 : idx < k
      · rw [addVote, if_neg h1, if_pos h2] at h
        rcases List.mem_cons.mp h with rfl | h3
        · exact Or.inr rfl
        · exact Or.inl h3
      · rw [addVote, if_neg h1, if_neg h2] at h
        rcases List.mem_cons.mp h with rfl | h3
        · exact Or.inl (List.mem_cons_self _ _)
        · rcases ih h3 with h4 | h4
          · exact Or.inl (List.mem_cons_of_mem _ h4)
          · exact Or.inr h4

theorem addVote_sorted : ∀ {votes : List (Nat × Nat)}, voteKeysSorted votes →
    ∀ (idx w : Nat), voteKeysSorted (addVote votes idx w) := by
  intro votes
  induction votes with
  | nil =>
    intro h idx w
    simp [addVote, voteKeysSorted]
  | cons kv rest ih =>
    intro h idx w
    obtain ⟨k, v⟩ := kv
    have hk := (List.pairwise_cons.mp h).1
    have hrest := (List.pairwise_cons.mp h).2
    by_cases h1 : idx = k
    · subst h1
      rw [voteKeysSorted, addVote, if_pos rfl]
      exact List.pairwise_cons.mpr ⟨hk, hrest⟩
    · by_cases h2 : idx < k
      · rw [voteKeysSorted, addVote, if_neg h1, if_pos h2]
        refine List.pairwise_cons.mpr ⟨?_, List.pairwise_cons.mpr ⟨hk, hrest⟩⟩
        intro q hq
        rcases List.mem_cons.mp hq with rfl | hq'
        · exact h2
        · exact lt_trans h2 (hk _ hq')
      · rw [voteKeysSorted, addVote, if_neg h1, if_neg h2]
        refine List.pairwise_cons.mpr ⟨?_, ih hrest idx w⟩
        intro q hq
        rcases mem_addVote hq with h3 | h3
        · exact hk _ h3
        · rw [h3]; omega

theorem lookupVote_eq_none : ∀ {votes : List (Nat × Nat)} {j : Nat},
    (∀ q ∈ votes, q.1 ≠ j) → lookupVote votes j = none := by
  intro votes
  induction votes with
  | nil =>
    intro j h
    rfl
  | cons kv rest ih =>
    intro j h
    obtain ⟨k, v⟩ := kv
    rw [lookupVote, if_neg (h (k, v) (List.mem_cons_self _ _)),
      ih (fun q hq => h q (List.mem_cons_of_mem _ hq))]

theorem lookupVote_addVote_self : ∀ {votes : List (Nat × Nat)}, voteKeysSorted votes →
    ∀ (idx w : Nat),
      lookupVote (addVote votes idx w) idx = some ((lookupVote votes idx).getD 0 + w) := by
  intro votes
  induction votes with
  | nil =>
    intro h idx w
    simp [addVote, lookupVote]
  | cons kv rest ih =>
    intro h idx w
    obtain ⟨k, v⟩ := kv
    have hk := (List.pairwise_cons.mp h).1
    have hrest := (List.pairwise_cons.mp h).2
    by_cases h1 : idx = k
    · subst h1
      rw [addVote, if_pos rfl, lookupVote, if_pos rfl, lookupVote, if_pos rfl]
      simp [Nat.add_comm]
    · by_cases h2 : idx < k
      · rw [addVote, if_neg h1, if_pos h2, lookupVote, if_pos rfl, lookupVote,
          if_neg (fun hh => h1 hh.symm),
          lookupVote_eq_none (fun q hq => by have := hk q hq; omega)]
        simp
      · rw [addVote, if_neg h1, if_neg h2, lookupVote,
          if_neg (fun hh => h1 hh.symm), ih hrest idx w, lookupVote,
          if_neg (fun hh => h1 hh.symm)]

theorem lookupVote_addVote_ne : ∀ (votes : List (Nat × Nat)) (idx w j : Nat), j ≠ idx →
    lookupVote (addVote votes idx w) j = lookupVote votes j := by
  intro votes
  induction votes with
  | nil =>
    intro idx w j h
    rw [addVote]
    rw [lookupVote_eq_none]
    · rfl
    · rintro q hq
      rw [List.mem_singleton.mp hq]
      exact Ne.symm h
  | cons kv rest ih =>
    intro idx w j h
    obtain ⟨k, v⟩ := kv
    by_cases h1 : idx = k
    · subst h1
      rw [addVote, if_pos rfl, lookupVote, if_neg (fun hh => h (hh.symm)), lookupVote,
        if_neg (fun hh => h (hh.symm))]
    · by_cases h2 : idx < k
      · rw [addVote, if_neg h1, if_pos h2, lookupVote, if_neg (fun hh => h hh.symm)]
      · rw [addVote, if_neg h1, if_neg h2]
        by_cases h3 : k = j
        · rw [lookupVote, if_pos h3, lookupVote, if_pos h3]
        · rw [lookupVote, if_neg h3, lookupVote, if_neg h3, ih _ _ _ h]

theorem lookupVote_addVote_ge {votes : List (Nat × Nat)} (hs : voteKeysSorted votes)
    (idx w j : Nat) :
    (lookupVote votes j).getD 0 ≤ (lookupVote (addVote votes idx w) j).getD 0 := by
  by_cases h : j = idx
  · subst h
    rw [lookupVote_addVote_self hs]
    simp
  · rw [lookupVote_addVote_ne _ _ _ _ h]

theorem addVotesAll_sorted : ∀ (idxs : List Nat) {votes : List (Nat × Nat)},
    voteKeysSorted votes → ∀ w, voteKeysSorted (addVotesAll votes idxs w) := by
  intro idxs
  induction idxs with
  | nil =>
    intro votes h w
    exact h
  | cons i idxs ih =>
    intro votes h w
    exact ih (addVote_sorted h i w) w

theorem lookupVote_addVotesAll_ge : ∀ (idxs : List Nat) {votes : List (Nat × Nat)},
    voteKeysSorted votes → ∀ (w j : Nat),
      (lookupVote votes j).getD 0 ≤ (lookupVote (addVotesAll votes idxs w) j).getD 0 := by
  intro idxs
  induction idxs with
  | nil =>
    intro votes h w j
    exact le_refl _
  | cons i idxs ih =>
    intro votes h w j
    exact le_trans (lookupVote_addVote_ge h i w j) (ih (addVote_sorted h i w) w j)

theorem exactKeywordFold_sorted : ∀ (ps : List (Nat × Emoji)) {votes : List (Nat × Nat)},
    voteKeysSorted votes → ∀ kIdx,
      voteKeysSorted (ps.foldl
        (fun v p => if kIdx ∈ p.2.keywords then addVote v p.1 4 else v) votes) := by
  intro ps
  induction ps with
  | nil =>
    intro votes h kIdx
    exact h
  | cons p ps ih =>
    intro votes h kIdx
    simp only [List.foldl_cons]
    by_cases hm : kIdx ∈ p.2.keywords
    · rw [if_pos hm]
      exact ih (addVote_sorted h p.1 4) kIdx
    · rw [if_neg hm]
      exact ih h kIdx

theorem lookupVote_exactKeywordFold_ge : ∀ (ps : List (Nat × Emoji))
    {votes : List (Nat × Nat)}, voteKeysSorted votes → ∀ (kIdx j : Nat),
      (lookupVote votes j).getD 0 ≤
        (lookupVote (ps.foldl
          (fun v p => if kIdx ∈ p.2.keywords then addVote v p.1 4 else v) votes) j).getD 0 := by
  intro ps
  induction ps with
  | nil =>
    intro votes h kIdx j
    exact le_refl _
  | cons p ps ih =>
    intro votes h kIdx j
    simp only [List.foldl_cons]
    by_cases hm : kIdx ∈ p.2.keywords
    · rw [if_pos hm]
      exact le_trans (lookupVote_addVote_ge h p.1 4 j) (ih (addVote_sorted h p.1 4) kIdx j)
    · rw [if_neg hm]
      exact ih h kIdx j

theorem lookupVote_exactKeywordFold_hit : ∀ (ps : List (Nat × Emoji))
    {votes : List (Nat × Nat)}, voteKeysSorted votes → ∀ (kIdx j : Nat),
      (∃ p ∈ ps, p.1 = j ∧ kIdx ∈ p.2.keywords) →
      4 ≤ (lookupVote (ps.foldl
        (fun v p => if kIdx ∈ p.2.keywords then addVote v p.1 4 else v) votes) j).getD 0 := by
  intro ps
  induction ps with
  | nil =>
    intro votes h kIdx j hex
    simp at hex
  | cons p ps ih =>
    intro votes h kIdx j hex
    simp only [List.foldl_cons]
    rcases hex with ⟨p', hp', hj, hkw⟩
    rcases List.mem_cons.mp hp' with rfl | hp2
    · rw [if_pos hkw, hj]
      refine le_trans ?_ (lookupVote_exactKeywordFold_ge ps (addVote_sorted h j 4) kIdx j)
      rw [lookupVote_addVote_self h]
      simp only [Option.getD_some]
      omega
    · by_cases hm : kIdx ∈ p.2.keywords
      · rw [if_pos hm]
        exact ih (addVote_sorted h p.1 4) kIdx j ⟨p', hp2, hj, hkw⟩
      · rw [if_neg hm]
        exact ih h kIdx j ⟨p', hp2, hj, hkw⟩

theorem mem_of_lookupVote : ∀ {votes : List (Nat × Nat)} {j v : Nat},
    lookupVote votes j = some v → (j, v) ∈ votes := by
  intro votes
  induction votes with
  | nil =>
    intro j v h
    simp [lookupVote] at h
  | cons kv rest ih =>
    intro j v h
    obtain ⟨k, w⟩ := kv
    by_cases hk : k = j
    · subst hk
      rw [lookupVote, if_pos rfl] at h
      injection h with h
      rw [← h]
      exact List.mem_cons_self _ _
    · rw [lookupVote, if_neg hk] at h
      exact List.mem_cons_of_mem _ (ih h)

theorem lookupVote_eq_of_mem : ∀ {votes : List (Nat × Nat)}, voteKeysSorted votes →
    ∀ {j v : Nat}, (j, v) ∈ votes → lookupVote votes j = some v := by
  intro votes
  induction votes with
  | nil =>
    intro h j v hm
    simp at hm
  | cons kv rest ih =>
    intro h j v hm
    obtain ⟨k, w⟩ := kv
    have hk := (List.pairwise_cons.mp h).1
    have hrest := (List.pairwise_cons.mp h).2
    rcases List.mem_cons.mp hm with heq | hm2
    · injection heq with h1 h2
      subst h1
      subst h2
      rw [lookupVote, if_pos rfl]
    · have hne : k ≠ j := by
        have := hk _ hm2
        simp only at this
        omega
      rw [lookupVote, if_neg hne]
      exact ih hrest hm2

theorem votesStage1_sorted (s : EmojiSearcher) (input : Str) :
    voteKeysSorted (votesStage1 s input) := by
  unfold votesStage1
  cases lookupAssoc s.nameMap input with
  | none => exact List.Pairwise.nil
  | some idx => exact addVote_sorted List.Pairwise.nil idx 5

theorem votesStage2_sorted (s : EmojiSearcher) (input : Str) :
    voteKeysSorted (votesStage2 s input) := by
  unfold votesStage2
  cases indexOfStr s.emojiList.keywords input with
  | none => exact votesStage1_sorted s input
  | some kIdx => exact exactKeywordFold_sorted _ (votesStage1_sorted s input) kIdx

theorem finalVotes_sorted (s : EmojiSearcher) (input : Str) :
    voteKeysSorted (finalVotes s input) := by
  unfold finalVotes
  exact addVotesAll_sorted _
    (addVotesAll_sorted _ (addVotesAll_sorted _ (votesStage2_sorted s input) 3) 2) 1

/-- Whatever weight a record has accumulated by step 2 survives (only grows
through) the three trie stages. -/
theorem finalVotes_ge_stage2 (s : EmojiSearcher) (input : Str) (j : Nat) :
    (lookupVote (votesStage2 s input) j).getD 0 ≤
      (lookupVote (finalVotes s input) j).getD 0 := by
  unfold finalVotes
  have s2 := votesStage2_sorted s input
  have s3 := addVotesAll_sorted (searchTrie s.nameTrieRoot (toLowerStr (jsTrim input))) s2 3
  have s4 := addVotesAll_sorted (searchTrie s.keywordTrieRoot (toLowerStr (jsTrim input))) s3 2
  refine le_trans (lookupVote_addVotesAll_ge _ s2 3 j)
    (le_trans (lookupVote_addVotesAll_ge _ s3 2 j) (lookupVote_addVotesAll_ge _ s4 1 j))

/-- Whatever weight a record has from the exact-name stage survives the
exact-keyword stage. -/
theorem votesStage2_ge_stage1 (s : EmojiSearcher) (input : Str) (j : Nat) :
    (lookupVote (votesStage1 s input) j).getD 0 ≤
      (lookupVote (votesStage2 s input) j).getD 0 := by
  unfold votesStage2
  cases indexOfStr s.emojiList.keywords input with
  | none => exact le_refl _
  | some kIdx =>
    exact lookupVote_exactKeywordFold_ge _ (votesStage1_sorted s input) kIdx j

theorem toLowerStr_eq_nil {s : Str} : toLowerStr s = [] ↔ s = [] := by
  simp [toLowerStr]

theorem truthyWeight_some {w : Option Nat} (h : truthyWeight w = true) :
    ∃ n, w = some n ∧ n ≠ 0 := by
  cases w with
  | none => simp [truthyWeight] at h
  | some n =>
    refine ⟨n, rfl, ?_⟩
    simpa [truthyWeight] using h

theorem localeCompareM_total : ∀ (a b : Str),
    localeCompareM a b ≤ 0 ∨ localeCompareM b a ≤ 0 := by
  intro a
  induction a with
  | nil =>
    intro b
    cases b with
    | nil => exact Or.inl (by simp [localeCompareM])
    | cons y ys => exact Or.inl (by simp [localeCompareM])
  | cons x xs ih =>
    intro b
    cases b with
    | nil => exact Or.inr (by simp [localeCompareM])
    | cons y ys =>
      by_cases h1 : x < y
      · exact Or.inl (by simp [localeCompareM, h1])
      · by_cases h2 : y < x
        · exact Or.inr (by simp [localeCompareM, h2])
        · have hxy : x = y := le_antisymm (not_lt.mp h2) (not_lt.mp h1)
          subst hxy
          rcases ih ys with h | h
          · exact Or.inl (by simpa [localeCompareM, lt_self_iff_false] using h)
          · exact Or.inr (by simpa [localeCompareM, lt_self_iff_false] using h)

theorem localeCompareM_trans : ∀ (a b c : Str),
    localeCompareM a b ≤ 0 → localeCompareM b c ≤ 0 → localeCompareM a c ≤ 0 := by
  intro a
  induction a with
  | nil =>
    intro b c h1 h2
    cases c with
    | nil => simp [localeCompareM]
    | cons z zs => simp [localeCompareM]
  | cons x xs ih =>
    intro b c h1 h2
    cases b with
    | nil => simp [localeCompareM] at h1
    | cons y ys =>
      cases c with
      | nil => simp [localeCompareM] at h2
      | cons z zs =>
        by_cases hxy : x < y
        · by_cases hyz : y < z
          · simp [localeCompareM, lt_trans hxy hyz]
          · by_cases hzy : z < y
            · simp [localeCompareM, hyz, hzy] at h2
            · have hyz' : y = z := le_antisymm (not_lt.mp hzy) (not_lt.mp hyz)
              subst hyz'
              simp [localeCompareM, hxy]
        · by_cases hyx : y < x
          · simp [localeCompareM, hxy, hyx] at h1
          · have hxy' : x = y := le_antisymm (not_lt.mp hyx) (not_lt.mp hxy)
            subst hxy'
            simp only [localeCompareM, lt_self_iff_false, if_false] at h1
            by_cases hxz : x < z
            · simp [localeCompareM, hxz]
            · by_cases hzx : z < x
              · simp [localeCompareM, hxz, hzx] at h2
              · have hxz' : x = z := le_antisymm (not_lt.mp hzx) (not_lt.mp hxz)
                subst hxz'
                simp only [localeCompareM, lt_self_iff_false, if_false] at h2 ⊢
                exact ih ys zs h1 h2

instance : IsTotal HumanReadableEmoji resLe where
  total a b := by
    simp only [resLe, resCmp]
    cases ha : truthyWeight a.weight
    · cases hb : truthyWeight b.weight
      · simpa [ha, hb] using localeCompareM_total a.emoji b.emoji
      · exact Or.inr (by simp [ha, hb])
    · cases hb : truthyWeight b.weight
      · exact Or.inl (by simp [ha, hb])
      · obtain ⟨na, hna, -⟩ := truthyWeight_some ha
        obtain ⟨nb, hnb, -⟩ := truthyWeight_some hb
        simp only [ha, hb, Bool.and_self, if_pos, hna, hnb, Option.getD_some]
        omega

instance : IsTrans HumanReadableEmoji resLe where
  trans a b c hab hbc := by
    simp only [resLe, resCmp] at hab hbc ⊢
    cases ha : truthyWeight a.weight <;> cases hb : truthyWeight b.weight <;>
      cases hc : truthyWeight c.weight
    · simp only [ha, hb, hc, Bool.and_self, Bool.false_and, Bool.false_eq_true,
        if_false] at hab hbc ⊢
      exact localeCompareM_trans _ _ _ hab hbc
    · exact absurd hbc (by simp [hb, hc])
    · exact absurd hab (by simp [ha, hb])
    · exact absurd hab (by simp [ha, hb])
    · simp [ha, hb, hc]
    · exact absurd hbc (by simp [hb, hc])
    · simp [ha, hb, hc]
    · have hab2 : (b.weight.getD 0 : Int) - (a.weight.getD 0 : Int) ≤ 0 := by
        simpa [ha, hb] using hab
      have hbc2 : (c.weight.getD 0 : Int) - (b.weight.getD 0 : Int) ≤ 0 := by
        simpa [hb, hc] using hbc
      have hgoal : (c.weight.getD 0 : Int) - (a.weight.getD 0 : Int) ≤ 0 := by omega
      simpa [ha, hc] using hgoal

theorem searchEntries_nonblank (s : EmojiSearcher) (input : Str) (h : jsTrim input ≠ []) :
    searchEntries s input =
      ((finalVotes s input).filter (fun p => 3 < p.2)).map (fun p => (p.1, some p.2)) := by
  unfold searchEntries
  rw [if_neg (fun hh => h (toLowerStr_eq_nil.mp hh))]

theorem mem_searchEntries_of_vote (s : EmojiSearcher) (input : Str) (h : jsTrim input ≠ [])
    {j w : Nat} (hw : lookupVote (finalVotes s input) j = some w) (h3 : 3 < w) :
    (j, some w) ∈ searchEntries s input := by
  rw [searchEntries_nonblank s input h]
  refine List.mem_map.mpr ⟨(j, w), ?_, rfl⟩
  refine List.mem_filter.mpr ⟨mem_of_lookupVote hw, ?_⟩
  simpa using h3

theorem lookupVote_ge_some {votes : List (Nat × Nat)} {j n : Nat} (hn : 0 < n)
    (h : n ≤ (lookupVote votes j).getD 0) :
    ∃ w, lookupVote votes j = some w ∧ n ≤ w := by
  cases hv : lookupVote votes j with
  | none =>
    rw [hv] at h
    simp at h
    omega
  | some w => exact ⟨w, rfl, by rwa [hv, Option.getD_some] at h⟩

theorem votesStage1_self (s : EmojiSearcher) (input : Str) {j : Nat}
    (h : lookupAssoc s.nameMap input = some j) :
    lookupVote (votesStage1 s input) j = some 5 := by
  unfold votesStage1
  rw [h, lookupVote_addVote_self List.Pairwise.nil]
  rfl

theorem intoHumanReadable_emoji {lst : ReducedEmojiList} {i : Nat} {e : Emoji}
    (h : lst.emojis.get? i = some e) (w : Option Nat) :
    (intoHumanReadable lst i w).emoji = e.emoji := by
  unfold intoHumanReadable
  rw [List.getD_eq_getD_get?, h]
  rfl

theorem findIndexGlyph_some : ∀ {es : List Emoji} {g : Str} {i : Nat},
    findIndexGlyph es g = some i → ∃ e, es.get? i = some e ∧ e.emoji = g := by
  intro es
  induction es with
  | nil =>
    intro g i h
    simp [findIndexGlyph] at h
  | cons e rest ih =>
    intro g i h
    by_cases hg : e.emoji = g
    · rw [findIndexGlyph, if_pos hg] at h
      injection h with h
      rw [← h]
      exact ⟨e, rfl, hg⟩
    · rw [findIndexGlyph, if_neg hg] at h
      cases hrec : findIndexGlyph rest g with
      | none =>
        rw [hrec] at h
        simp at h
      | some i0 =>
        rw [hrec] at h
        simp only [Option.map_some'] at h
        injection h with h
        obtain ⟨e', he', hee⟩ := ih hrec
        rw [← h]
        exact ⟨e', by simpa using he', hee⟩

/-- C1 (amended): after the index is built from a catalog, for every
**non-empty** query `q`, looking `q` up in the name trie returns exactly the
record ids whose lowercased name contains `q` as a contiguous substring;
correspondingly for the keyword trie (some keyword referenced by the record,
resolved with an empty-string default for an out-of-range id, contains `q`)
and the category trie (the record's resolved category or subcategory name
contains `q`).  The empty query is excluded: the trie root's output list is
empty while the empty string is a substring of every name. -/
theorem substring_index_exact (lst : ReducedEmojiList) (q : Str) (hq : q ≠ []) (j : Nat) :
    (j ∈ searchTrie (buildTries lst).nameTrieRoot q ↔
      ∃ e, lst.emojis.get? j = some e ∧ partOf q (toLowerStr e.name)) ∧
    (j ∈ searchTrie (buildTries lst).keywordTrieRoot q ↔
      ∃ e, lst.emojis.get? j = some e ∧
        ∃ kIdx ∈ e.keywords, partOf q (toLowerStr (lst.keywords.getD kIdx []))) ∧
    (j ∈ searchTrie (buildTries lst).categoryTrieRoot q ↔
      ∃ e, lst.emojis.get? j = some e ∧
        (partOf q (toLowerStr (lst.category.getD e.category [])) ∨
         partOf q (toLowerStr ((lst.subCategory.getD e.category []).getD e.subCategory [])))) := by
  refine ⟨?_, ?_, ?_⟩
  · rw [buildTries, mem_name_buildFrom lst]
    rw [show searchTrie emptyTries.nameTrieRoot q = [] from searchTrie_empty q]
    simp only [List.not_mem_nil, false_or]
    constructor
    · rintro ⟨hp, k, e, hk, rfl, hpart⟩
      exact ⟨e, by simpa using hk, hpart⟩
    · rintro ⟨e, hk, hpart⟩
      exact ⟨hq, j, e, hk, by omega, hpart⟩
  · rw [buildTries, mem_keyword_buildFrom lst]
    rw [show searchTrie emptyTries.keywordTrieRoot q = [] from searchTrie_empty q]
    simp only [List.not_mem_nil, false_or]
    constructor
    · rintro ⟨hp, k, e, hk, rfl, hpart⟩
      exact ⟨e, by simpa using hk, hpart⟩
    · rintro ⟨e, hk, hpart⟩
      exact ⟨hq, j, e, hk, by omega, hpart⟩
  · rw [buildTries, mem_category_buildFrom lst]
    rw [show searchTrie emptyTries.categoryTrieRoot q = [] from searchTrie_empty q]
    simp only [List.not_mem_nil, false_or]
    constructor
    · rintro ⟨hp, k, e, hk, rfl, hpart⟩
      exact ⟨e, by simpa using hk, hpart⟩
    · rintro ⟨e, hk, hpart⟩
      exact ⟨hq, j, e, hk, by omega, hpart⟩

/-- C9: every call to `insertIntoTrie` preserves the per-node
de-duplication invariant (each node's output holds any record id at most
once), and all three tries produced by building the index satisfy it. -/
theorem trie_outputs_nodup :
    (∀ (root : TrieNode) (text : Str) (idx : Nat),
        TrieNodup root → TrieNodup (insertIntoTrie root text idx)) ∧
    (∀ lst : ReducedEmojiList,
        TrieNodup (buildTries lst).nameTrieRoot ∧
        TrieNodup (buildTries lst).keywordTrieRoot ∧
        TrieNodup (buildTries lst).categoryTrieRoot) := by
  constructor
  · intro root text idx h
    exact trieNodup_insertIntoTrie text root h idx
  · intro lst
    exact trieNodup_buildFrom lst lst.emojis emptyTries 0
      trieNodup_empty trieNodup_empty trieNodup_empty

/-- C10: for every query (blank or not), the list returned by `search`
contains each record id at most once, because votes are accumulated in a
map keyed by record id (and the blank path enumerates distinct indices). -/
theorem search_no_duplicate_ids (s : EmojiSearcher) (input : Str) :
    ((searchEntries s input).map Prod.fst).Nodup := by
  unfold searchEntries
  by_cases h : toLowerStr (jsTrim input) = []
  · rw [if_pos h]
    simp only [List.map_map]
    have : (Prod.fst ∘ fun i : Nat => ((i, none) : Nat × Option Nat)) = id := rfl
    rw [this, List.map_id]
    exact List.nodup_range _
  · rw [if_neg h]
    simp only [List.map_map]
    have hsorted : ((finalVotes s input).filter (fun p => 3 < p.2)).Pairwise
        (fun p q => p.1 < q.1) := (finalVotes_sorted s input).filter _
    have hmapped : (((finalVotes s input).filter (fun p => 3 < p.2)).map
        (Prod.fst ∘ fun p : Nat × Nat => (p.1, some p.2))).Pairwise (· < ·) := by
      rw [List.pairwise_map]
      exact hsorted
    exact hmapped.imp (fun hlt => Nat.ne_of_lt hlt)

/-- C5: for every query that is empty after trimming, `search` returns
exactly one entry per catalog record, in catalog order, each with no
weight — the same output as `getAll`. -/
theorem blank_query_lists_all (s : EmojiSearcher) (input : Str) (h : jsTrim input = []) :
    s.search input = s.getAll ∧
    s.getAll.length = s.emojiList.emojis.length ∧
    (∀ i, i < s.emojiList.emojis.length →
        s.getAll.get? i = some (intoHumanReadable s.emojiList i none)) ∧
    (∀ x ∈ s.search input, x.weight = none) := by
  have hblank : toLowerStr (jsTrim input) = [] := by rw [h]; rfl
  have hentries : searchEntries s input =
      (List.range s.emojiList.emojis.length).map (fun i => (i, none)) := by
    unfold searchEntries
    rw [if_pos hblank]
  refine ⟨?_, ?_, ?_, ?_⟩
  · unfold EmojiSearcher.search EmojiSearcher.getAll
    rw [hentries, List.map_map]
    rfl
  · simp [EmojiSearcher.getAll]
  · intro i hi
    unfold EmojiSearcher.getAll
    rw [List.get?_map, List.get?_range hi]
    rfl
  · intro x hx
    unfold EmojiSearcher.search at hx
    rw [hentries] at hx
    simp only [List.map_map, List.mem_map] at hx
    obtain ⟨i, hi, hxi⟩ := hx
    rw [← hxi]
    rfl

/-- C6: an engine restored from the snapshot (`toJSON` output) of a freshly
built engine over a catalog is the same engine state, so for every query it
returns search results identical to the freshly built engine's (same record
ids, same weights, same filter outcome). -/
theorem snapshot_roundtrip (lst : ReducedEmojiList) (q : Str) :
    EmojiSearcher.makeCached lst (EmojiSearcher.make lst).toJSON = EmojiSearcher.make lst ∧
    searchEntries (EmojiSearcher.makeCached lst (EmojiSearcher.make lst).toJSON) q =
      searchEntries (EmojiSearcher.make lst) q ∧
    (EmojiSearcher.makeCached lst (EmojiSearcher.make lst).toJSON).search q =
      (EmojiSearcher.make lst).search q :=
  ⟨rfl, rfl, rfl⟩

/-- C2: for every query that is non-empty after trimming, every entry in
`search`'s output carries that record's accumulated weight and it is
strictly greater than 3, and every record whose accumulated weight is 3 or
less (including records with no votes at all) is absent from the output. -/
theorem result_filter_threshold (s : EmojiSearcher) (input : Str) (h : jsTrim input ≠ []) :
    (∀ p ∈ searchEntries s input,
        ∃ w, p.2 = some w ∧ 3 < w ∧ lookupVote (finalVotes s input) p.1 = some w) ∧
    (∀ j, (lookupVote (finalVotes s input) j).getD 0 ≤ 3 →
        j ∉ (searchEntries s input).map Prod.fst) := by
  constructor
  · intro p hp
    rw [searchEntries_nonblank s input h] at hp
    obtain ⟨q, hq, hpq⟩ := List.mem_map.mp hp
    have hf := List.mem_filter.mp hq
    rw [← hpq]
    refine ⟨q.2, rfl, by simpa using hf.2, ?_⟩
    exact lookupVote_eq_of_mem (finalVotes_sorted s input) hf.1
  · intro j hle hmem
    rw [searchEntries_nonblank s input h] at hmem
    simp only [List.map_map, List.mem_map] at hmem
    obtain ⟨q, hq, hj⟩ := hmem
    have hf := List.mem_filter.mp hq
    have hlook : lookupVote (finalVotes s input) q.1 = some q.2 :=
      lookupVote_eq_of_mem (finalVotes_sorted s input) hf.1
    have hgt : 3 < q.2 := by simpa using hf.2
    have hjq : q.1 = j := hj
    rw [hjq] at hlook
    rw [hlook] at hle
    simp at hle
    omega

/-- C3 (amended): for every query that equals some record's as-authored name
**without trimming** (the source looks the raw input up in `nameMap`), and
that is non-empty after trimming, the latest record bearing that name
receives the weight-5 exact-name signal: its accumulated weight is at least
5 and it appears in `search`'s result set.  (A query that only *trims* to a
name, e.g. with a leading space, misses the exact-name table.) -/
theorem exact_name_match (lst : ReducedEmojiList) (input : Str) (j : Nat) (e : Emoji)
    (hj : lst.emojis.get? j = some e) (hname : e.name = input)
    (hlast : ∀ k e', j < k → lst.emojis.get? k = some e' → e'.name ≠ input)
    (ht : jsTrim input ≠ []) :
    ∃ w, 5 ≤ w ∧ (j, some w) ∈ searchEntries (EmojiSearcher.make lst) input := by
  have hlook : lookupAssoc (EmojiSearcher.make lst).nameMap input = some j := by
    have hbase := nameMap_buildFrom_last lst lst.emojis emptyTries 0 j e hj
      (fun k' e' hlt hget => by rw [hname]; exact hlast k' e' hlt hget)
    rw [hname] at hbase
    simpa using hbase
  have h1 : lookupVote (votesStage1 (EmojiSearcher.make lst) input) j = some 5 :=
    votesStage1_self _ _ hlook
  have h2 : 5 ≤ (lookupVote (finalVotes (EmojiSearcher.make lst) input) j).getD 0 := by
    refine le_trans ?_ (le_trans (votesStage2_ge_stage1 _ input j)
      (finalVotes_ge_stage2 _ input j))
    rw [h1]
    exact le_refl _
  obtain ⟨w, hw, h5⟩ := lookupVote_ge_some (by omega) h2
  exact ⟨w, h5, mem_searchEntries_of_vote _ _ ht hw (by omega)⟩

/-- C4 (amended): for every query that equals some keyword string
**without trimming** (the source passes the raw input to
`keywords.indexOf`), and that is non-empty after trimming, every record
referencing the first keyword id whose string equals the query receives the
weight-4 exact-keyword signal: its accumulated weight is at least 4 and it
appears in `search`'s result set. -/
theorem exact_keyword_match (lst : ReducedEmojiList) (input : Str) (kIdx j : Nat) (e : Emoji)
    (hkw : indexOfStr lst.keywords input = some kIdx)
    (hj : lst.emojis.get? j = some e) (hmem : kIdx ∈ e.keywords)
    (ht : jsTrim input ≠ []) :
    ∃ w, 4 ≤ w ∧ (j, some w) ∈ searchEntries (EmojiSearcher.make lst) input := by
  have h2 : 4 ≤ (lookupVote (votesStage2 (EmojiSearcher.make lst) input) j).getD 0 := by
    unfold votesStage2
    rw [show indexOfStr (EmojiSearcher.make lst).emojiList.keywords input = some kIdx from hkw]
    refine lookupVote_exactKeywordFold_hit _ (votesStage1_sorted _ input) kIdx j ?_
    refine ⟨(j, e), ?_, rfl, hmem⟩
    exact List.mem_enum_iff_get?.mpr hj
  have h3 : 4 ≤ (lookupVote (finalVotes (EmojiSearcher.make lst) input) j).getD 0 :=
    le_trans h2 (finalVotes_ge_stage2 _ input j)
  obtain ⟨w, hw, h4⟩ := lookupVote_ge_some (by omega) h3
  exact ⟨w, h4, mem_searchEntries_of_vote _ _ ht hw (by omega)⟩

theorem getCommon_glyphs_aux (lst : ReducedEmojiList) :
    ∀ gs : List Str,
      (((gs.map (fun g => (findIndexGlyph lst.emojis g).map
          (fun i => intoHumanReadable lst i none))).filterMap id).map
        (fun x => x.emoji)) =
      gs.filter (fun g => (findIndexGlyph lst.emojis g).isSome) := by
  intro gs
  induction gs with
  | nil => rfl
  | cons g gs ih =>
    simp only [List.map_cons, List.filterMap_cons]
    cases hg : findIndexGlyph lst.emojis g with
    | none =>
      simp only [Option.map_none', id, List.filter_cons, hg, Option.isSome_none,
        Bool.false_eq_true, if_false]
      exact ih
    | some i =>
      obtain ⟨e, he, hee⟩ := findIndexGlyph_some hg
      simp only [Option.map_some', id, List.filter_cons, hg, Option.isSome_some, if_true]
      rw [List.map_cons, intoHumanReadable_emoji he, hee, ih]

theorem getCommon_eq (s : EmojiSearcher) :
    s.getCommon = commonEmojis.filterMap (fun g =>
      (findIndexGlyph s.emojiList.emojis g).map
        (fun i => intoHumanReadable s.emojiList i none)) := by
  unfold EmojiSearcher.getCommon
  rw [List.filterMap_map, Function.id_comp]

/-- C8: `getCommon` returns exactly the curated glyphs present in the
catalog, in curated-list order, silently skipping curated glyphs with no
catalog record; every returned entry resolves to a catalog record whose
glyph equals the curated glyph. -/
theorem curated_common_set (s : EmojiSearcher) :
    s.getCommon = commonEmojis.filterMap (fun g =>
      (findIndexGlyph s.emojiList.emojis g).map
        (fun i => intoHumanReadable s.emojiList i none)) ∧
    s.getCommon.map (fun x => x.emoji) =
      commonEmojis.filter (fun g => (findIndexGlyph s.emojiList.emojis g).isSome) ∧
    (∀ x ∈ s.getCommon, ∃ g ∈ commonEmojis, ∃ i e,
        s.emojiList.emojis.get? i = some e ∧ e.emoji = g ∧
        x = intoHumanReadable s.emojiList i none ∧ x.emoji = g) := by
  refine ⟨getCommon_eq s, ?_, ?_⟩
  · exact getCommon_glyphs_aux s.emojiList commonEmojis
  · intro x hx
    rw [getCommon_eq s] at hx
    obtain ⟨g, hg, hfg⟩ := List.mem_filterMap.mp hx
    cases hidx : findIndexGlyph s.emojiList.emojis g with
    | none =>
      rw [hidx] at hfg
      simp at hfg
    | some i =>
      rw [hidx] at hfg
      simp only [Option.map_some', Option.some.injEq] at hfg
      obtain ⟨e, he, hee⟩ := findIndexGlyph_some hidx
      refine ⟨g, hg, i, e, he, hee, hfg.symm, ?_⟩
      rw [← hfg, intoHumanReadable_emoji he, hee]

/-- The ordering described by the spec's caller-ranking sentence:
descending weight with absent weights after all present ones, and every
remaining tie broken by the display glyph in code-point order.  Written
from the spec's words, for comparison with the code's comparator. -/
def specRankLe (a b : HumanReadableEmoji) : Prop :=
  match a.weight, b.weight with
  | some wa, some wb => wb < wa ∨ (wa = wb ∧ localeCompareM a.emoji b.emoji ≤ 0)
  | some _, none => True
  | none, some _ => False
  | none, none => localeCompareM a.emoji b.emoji ≤ 0

/-- C7 (amended): the displayed list is the engine's result list for the
trimmed query, stable-sorted by the caller's comparator — primarily by
descending truthy weight, any entry lacking a truthy weight placed after
every entry having one, the glyph comparison applying only when *both*
entries lack a truthy weight (entries tied on equal present weights keep
the engine's output order) — then truncated to 32 entries by the caller,
not by the engine. -/
theorem caller_ranking (s : EmojiSearcher) (input : Str) (h : jsTrim input ≠ []) :
    throttledSearch s input =
      some ((List.insertionSort resLe (s.search (jsTrim input))).take 32) ∧
    List.Sorted resLe (List.insertionSort resLe (s.search (jsTrim input))) ∧
    (List.insertionSort resLe (s.search (jsTrim input))).Perm (s.search (jsTrim input)) ∧
    (∀ x y : HumanReadableEmoji,
        truthyWeight x.weight = true → truthyWeight y.weight = true →
        (resLe x y ↔ y.weight.getD 0 ≤ x.weight.getD 0)) ∧
    (∀ x y : HumanReadableEmoji,
        truthyWeight x.weight = true → truthyWeight y.weight = false → resLe x y) := by
  refine ⟨?_, List.sorted_insertionSort resLe _, List.perm_insertionSort resLe _, ?_, ?_⟩
  · unfold throttledSearch
    rw [if_neg h]
  · intro x y hx hy
    have hc : resCmp x y = (y.weight.getD 0 : Int) - (x.weight.getD 0 : Int) := by
      simp [resCmp, hx, hy]
    rw [resLe, hc]
    omega
  · intro x y hx hy
    have hc : resCmp x y = -1 := by
      simp [resCmp, hx, hy]
    rw [resLe, hc]
    omega

/-- One-record catalog: glyph `x`, name `a`, category and subcategory `z`. -/
def oneRecCat : ReducedEmojiList :=
  { category := ["z".data]
    subCategory := [["z".data]]
    keywords := []
    emojis := [⟨"x".data, "a".data, 0, 0, [], none⟩] }

/-- One-record catalog whose only keyword is `k`; every other indexed
string is `z`. -/
def kwCat : ReducedEmojiList :=
  { category := ["z".data]
    subCategory := [["z".data]]
    keywords := ["k".data]
    emojis := [⟨"x".data, "z".data, 0, 0, [0], none⟩] }

/-- The spec's running example: one record named `party popper` with the
keyword `celebration`. -/
def tinyCat : ReducedEmojiList :=
  { category := ["food".data]
    subCategory := [["fruit".data]]
    keywords := ["celebration".data]
    emojis := [⟨"t".data, "party popper".data, 0, 0, [0], none⟩] }

/-- Two records that tie at weight 5 on the query `x`, with glyphs in
descending code-point order (`b` before `a`) in catalog order. -/
def cexC7 : ReducedEmojiList :=
  { category := ["z".data]
    subCategory := [["z".data]]
    keywords := ["xk".data]
    emojis := [⟨"b".data, "xa".data, 0, 0, [0], none⟩,
               ⟨"a".data, "xb".data, 0, 0, [0], none⟩] }

/-- C1 counterexample: on the one-record catalog, the empty query is a
substring of the record's lowercased name, yet the name-trie lookup of the
(lowercased) empty query returns the root's empty output list, so the trie
does not return "exactly the set of record ids whose name contains q" for
every query string q. -/
theorem substring_index_empty_query_cex :
    partOf [] (toLowerStr "a".data) ∧
    oneRecCat.emojis.get? 0 = some ⟨"x".data, "a".data, 0, 0, [], none⟩ ∧
    (0 : Nat) ∉ searchTrie (buildTries oneRecCat).nameTrieRoot (toLowerStr []) := by
  refine ⟨partOf_nil _, rfl, ?_⟩
  decide

/-- C3 counterexample: the query `" a"` trims to the record's exact name
`"a"`, but `search` looks the *raw* query up in the exact-name table, so
the record gets no weight-5 signal; its only signal is the substring-name
match (weight 3), which the `> 3` filter drops, so it does not appear in
the result set at all. -/
theorem exact_name_trim_cex :
    jsTrim " a".data = "a".data ∧
    (oneRecCat.emojis.get? 0).map Emoji.name = some "a".data ∧
    searchEntries (EmojiSearcher.make oneRecCat) " a".data = [] := by
  refine ⟨by decide, rfl, by decide⟩

/-- C4 counterexample: the query `" k"` trims to the keyword `"k"`, but
`search` passes the *raw* query to `keywords.indexOf`, so the record
referencing that keyword gets no weight-4 signal; its only signal is the
substring-keyword match (weight 2), which the `> 3` filter drops. -/
theorem exact_keyword_trim_cex :
    jsTrim " k".data = "k".data ∧
    kwCat.keywords.get? 0 = some "k".data ∧
    (kwCat.emojis.get? 0).map Emoji.keywords = some [0] ∧
    searchEntries (EmojiSearcher.make kwCat) " k".data = [] := by
  refine ⟨by decide, rfl, rfl, by decide⟩

/-- C7 counterexample: on the query `x` both records tie at weight 5; the
displayed list keeps them in engine (ascending id) order — glyph `b` before
glyph `a` — even though the second entry's glyph strictly precedes the
first's in code-point order, so the displayed tie is *not* broken by the
glyph, contradicting the claimed ordering (`specRankLe`). -/
theorem caller_ranking_tie_cex :
    throttledSearch (EmojiSearcher.make cexC7) "x".data =
      some [intoHumanReadable cexC7 0 (some 5), intoHumanReadable cexC7 1 (some 5)] ∧
    (intoHumanReadable cexC7 0 (some 5)).weight =
      (intoHumanReadable cexC7 1 (some 5)).weight ∧
    localeCompareM (intoHumanReadable cexC7 1 (some 5)).emoji
      (intoHumanReadable cexC7 0 (some 5)).emoji = -1 ∧
    ¬ specRankLe (intoHumanReadable cexC7 0 (some 5)) (intoHumanReadable cexC7 1 (some 5)) := by
  refine ⟨by decide, by decide, by decide, ?_⟩
  intro hspec
  have hs : (5 : Nat) < 5 ∨ ((5 : Nat) = 5 ∧ localeCompareM "b".data "a".data ≤ 0) := hspec
  rcases hs with h | ⟨-, h⟩
  · omega
  · revert h
    decide

theorem substring_index_exact_witness :
    ((0 : Nat) ∈ searchTrie (buildTries oneRecCat).nameTrieRoot "a".data ↔
      ∃ e, oneRecCat.emojis.get? 0 = some e ∧ partOf "a".data (toLowerStr e.name)) ∧
    ((0 : Nat) ∈ searchTrie (buildTries oneRecCat).keywordTrieRoot "a".data ↔
      ∃ e, oneRecCat.emojis.get? 0 = some e ∧
        ∃ kIdx ∈ e.keywords, partOf "a".data (toLowerStr (oneRecCat.keywords.getD kIdx []))) ∧
    ((0 : Nat) ∈ searchTrie (buildTries oneRecCat).categoryTrieRoot "a".data ↔
      ∃ e, oneRecCat.emojis.get? 0 = some e ∧
        (partOf "a".data (toLowerStr (oneRecCat.category.getD e.category [])) ∨
         partOf "a".data
           (toLowerStr ((oneRecCat.subCategory.getD e.category []).getD e.subCategory [])))) :=
  substring_index_exact oneRecCat "a".data (by decide) 0

theorem result_filter_threshold_witness :
    (∀ p ∈ searchEntries (EmojiSearcher.make tinyCat) "part".data,
        ∃ w, p.2 = some w ∧ 3 < w ∧
          lookupVote (finalVotes (EmojiSearcher.make tinyCat) "part".data) p.1 = some w) ∧
    (∀ j, (lookupVote (finalVotes (EmojiSearcher.make tinyCat) "part".data) j).getD 0 ≤ 3 →
        j ∉ (searchEntries (EmojiSearcher.make tinyCat) "part".data).map Prod.fst) :=
  result_filter_threshold (EmojiSearcher.make tinyCat) "part".data (by decide)

theorem exact_name_match_witness :
    ∃ w, 5 ≤ w ∧
      (0, some w) ∈ searchEntries (EmojiSearcher.make tinyCat) "party popper".data :=
  exact_name_match tinyCat "party popper".data 0
    ⟨"t".data, "party popper".data, 0, 0, [0], none⟩ rfl rfl
    (by
      intro k e' hlt hget
      cases k with
      | zero => omega
      | succ n => simp [tinyCat] at hget)
    (by decide)

theorem exact_keyword_match_witness :
    ∃ w, 4 ≤ w ∧
      (0, some w) ∈ searchEntries (EmojiSearcher.make tinyCat) "celebration".data :=
  exact_keyword_match tinyCat "celebration".data 0 0
    ⟨"t".data, "party popper".data, 0, 0, [0], none⟩ (by decide) rfl (by decide) (by decide)

theorem blank_query_lists_all_witness :
    (EmojiSearcher.make tinyCat).search " ".data = (EmojiSearcher.make tinyCat).getAll ∧
    (EmojiSearcher.make tinyCat).getAll.length =
      (EmojiSearcher.make tinyCat).emojiList.emojis.length ∧
    (∀ i, i < (EmojiSearcher.make tinyCat).emojiList.emojis.length →
        (EmojiSearcher.make tinyCat).getAll.get? i =
          some (intoHumanReadable (EmojiSearcher.make tinyCat).emojiList i none)) ∧
    (∀ x ∈ (EmojiSearcher.make tinyCat).search " ".data, x.weight = none) :=
  blank_query_lists_all (EmojiSearcher.make tinyCat) " ".data (by decide)

theorem caller_ranking_witness :
    throttledSearch (EmojiSearcher.make cexC7) "x ".data =
      some ((List.insertionSort resLe
        ((EmojiSearcher.make cexC7).search (jsTrim "x ".data))).take 32) ∧
    List.Sorted resLe (List.insertionSort resLe
      ((EmojiSearcher.make cexC7).search (jsTrim "x ".data))) ∧
    (List.insertionSort resLe
      ((EmojiSearcher.make cexC7).search (jsTrim "x ".data))).Perm
      ((EmojiSearcher.make cexC7).search (jsTrim "x ".data)) ∧
    (∀ x y : HumanReadableEmoji,
        truthyWeight x.weight = true → truthyWeight y.weight = true →
        (resLe x y ↔ y.weight.getD 0 ≤ x.weight.getD 0)) ∧
    (∀ x y : HumanReadableEmoji,
        truthyWeight x.weight = true → truthyWeight y.weight = false → resLe x y) :=
  caller_ranking (EmojiSearcher.make cexC7) "x ".data (by decide)

theorem trie_outputs_nodup_witness :
    TrieNodup (insertIntoTrie TrieNode.empty "ab".data 0) :=
  trie_outputs_nodup.1 TrieNode.empty "ab".data 0 trieNodup_empty

theorem curated_common_set_witness :
    (EmojiSearcher.make tinyCat).getCommon = commonEmojis.filterMap (fun g =>
      (findIndexGlyph (EmojiSearcher.make tinyCat).emojiList.emojis g).map
        (fun i => intoHumanReadable (EmojiSearcher.make tinyCat).emojiList i none)) ∧
    (EmojiSearcher.make tinyCat).getCommon.map (fun x => x.emoji) =
      commonEmojis.filter
        (fun g => (findIndexGlyph (EmojiSearcher.make tinyCat).emojiList.emojis g).isSome) ∧
    (∀ x ∈ (EmojiSearcher.make tinyCat).getCommon, ∃ g ∈ commonEmojis, ∃ i e,
        (EmojiSearcher.make tinyCat).emojiList.emojis.get? i = some e ∧ e.emoji = g ∧
        x = intoHumanReadable (EmojiSearcher.make tinyCat).emojiList i none ∧ x.emoji = g) :=
  curated_common_set (EmojiSearcher.make tinyCat)
